import Mathlib

/-! Verification development for the SGAttack / SGA targeted graph-attack code
(`src/attacks/sga.py` of the revisiting_robustness repository).

The Python code is shallowly embedded.  Adjacency and feature matrices are
total functions `Nat → Nat → ℤ` accompanied by an explicit node count `n`
(`nnodes = len(y)` in the source); tensors of scores are `List ℤ`; the
automatic-differentiation gradients produced by `compute_gradient` (the only
part that consults the surrogate model numerically) are supplied by an oracle
`grads : Nat → Grad`, one entry per `compute_gradient` call (call `0` is the
pre-pass made by `get_topk_influencers`, call `i + 1` is loop iteration `i`).
Scalars are modelled as `ℤ`: every value the embedded code itself stores is
an integer (0/1 adjacency and weights, selfloop-inclusive degrees), and the
control flow only adds, negates, multiplies and compares the oracle-supplied
scores, so every theorem below is purely order-theoretic in those values.
Fallible tensor operations (`torch.topk` with `k` larger than the tensor,
`min` / `max` over an empty tensor) are embedded as `Except String _`, since
they raise in PyTorch. -/

namespace SGAVerify

/-- `buildList n f` is the length-`n` tensor whose `i`-th entry is `f i`. -/
def buildList (n : Nat) (f : Nat → ℤ) : List ℤ :=
  (List.range n).map f

/-- `tensor.min().item()`: raises on an empty tensor. -/
def listMin : List ℤ → Except String ℤ
  | [] => .error "min(): cannot perform reduction on empty tensor"
  | x :: xs => .ok (xs.foldl min x)

/-- Auxiliary scan for `torch.max(v, dim=0)`: keeps the first maximal value
(`b` current best value, `bi` its index, `i` index of the list head). -/
def argmaxAux : ℤ → Nat → Nat → List ℤ → ℤ × Nat
  | b, bi, _, [] => (b, bi)
  | b, bi, i, x :: xs => if b < x then argmaxAux x i (i + 1) xs else argmaxAux b bi (i + 1) xs

/-- `torch.max(v, dim=0)`: value and (first) index of the maximum; raises on
an empty tensor. -/
def argmaxFirst : List ℤ → Except String (ℤ × Nat)
  | [] => .error "max(): cannot perform reduction on empty tensor"
  | x :: xs => .ok (argmaxAux x 0 1 xs)

/-- Insertion step for sorting index lists by descending score. -/
def insertIdx (l : List ℤ) (i : Nat) : List Nat → List Nat
  | [] => [i]
  | j :: js => if l.getD j 0 ≤ l.getD i 0 then i :: j :: js else j :: insertIdx l i js

/-- Indices of `l` sorted by descending value (insertion sort). -/
def sortIdxDesc (l : List ℤ) : List Nat :=
  (List.range l.length).foldr (insertIdx l) []

/-- `torch.topk(l, k, sorted=False)`: indices of the `k` largest entries;
raises when `k` exceeds the tensor length. -/
def topkIdx (l : List ℤ) (k : Nat) : Except String (List Nat) :=
  if l.length < k then .error "topk(): selected index k out of range"
  else .ok ((sortIdxDesc l).take k)

/-- One `compute_gradient` answer: gradients indexed by edge slot, non-edge
slot, and flattened feature cell. -/
structure Grad where
  edge : Nat → ℤ
  nonEdge : Nat → ℤ
  feature : Nat → ℤ

/-- The `SubGraph` named tuple (index structure only; the trainable weights
live in the loop state).  `selfLoopNodes` is the node list the self-loops are
built over (`unique_nodes`); `edgesAll` mirrors the `edges_all`
concatenation. -/
structure SubG where
  edgeIndex : List (Nat × Nat)
  nonEdgeIndex : List (Nat × Nat)
  selfLoopNodes : List Nat
  edgesAll : List (Nat × Nat)
  deriving DecidableEq

/-- One committed action of the perturbation loop (ghost-tagged with which
branch produced it; `structure_perturbations` / `feature_perturbations` are
recovered by forgetting the tag). -/
inductive Event where
  | removal (u v : Nat)
  | addition (u v : Nat)
  | feature (u v : Nat)
  deriving DecidableEq

/-- The discrete choice made by one loop iteration: which slot to flip. -/
inductive StepChoice where
  | rem (i u v : Nat)
  | add (i u v : Nat)
  | feat (u v : Nat)
  deriving DecidableEq

/-- Mutable state of the perturbation loop: the relaxed weight vectors (as
total functions over slot indices), the selfloop-inclusive degree vector, the
event log, and the (mutable when attacking features) feature matrix. -/
structure LoopState where
  edgeWeight : Nat → ℤ
  nonEdgeWeight : Nat → ℤ
  degree : Nat → ℤ
  events : List Event
  features : Nat → Nat → ℤ

/-- Everything `SGAttack.__init__` / `attack` read: the graph, labels, the
logits row of the surrogate for the target (`self.logits[target_node]`), hop count
`K`, and the attack configuration flags. -/
structure AttackConfig where
  n : Nat
  A : Nat → Nat → ℤ
  X : Nat → Nat → ℤ
  numFeatures : Nat
  y : Nat → Nat
  nclass : Nat
  logitsT : Nat → ℤ
  K : Nat
  target : Nat
  direct : Bool
  nInfluencers : Nat
  nPerturbations : Nat
  attackStructure : Bool
  attackFeatures : Bool

/-- What a completed run of the `attack` generator exposes. -/
structure AttackResult where
  yields : List (Option (Nat × Nat))
  structureLog : List (Nat × Nat)
  featureLog : List (Nat × Nat)
  modifiedAdj : Nat → Nat → ℤ
  modifiedFeatures : Nat → Nat → ℤ
  degree : Nat → ℤ
  events : List Event

/-- Build a 0/1 symmetric adjacency from an undirected edge list (used for
concrete instances). -/
def adjOfEdges (es : List (Nat × Nat)) : Nat → Nat → ℤ :=
  fun i j => if (i, j) ∈ es ∨ (j, i) ∈ es then 1 else 0

/-- `adj.sum(1).A1` entry for node `v` (row sum of the adjacency). -/
def rowSum (c : AttackConfig) (v : Nat) : ℤ :=
  ((List.range c.n).map (fun j => c.A v j)).sum

/-- `self.ori_adj[v].indices`: the stored (nonzero) column indices of row
`v` of the CSR adjacency. -/
def neighborsOf (c : AttackConfig) (v : Nat) : List Nat :=
  (List.range c.n).filter (fun j => decide (c.A v j ≠ 0))

/-- `np.asarray(self.ori_adj.nonzero())`: the directed edge list of all
nonzero adjacency entries, in row-major order. -/
def edgeListOf (c : AttackConfig) : List (Nat × Nat) :=
  (List.range c.n).flatMap
    (fun i => (List.range c.n).filterMap
      (fun j => if c.A i j ≠ 0 then some (i, j) else none))

/-- The node set produced by `k_hop_subgraph(target, K, edge_index)` with the
default `source_to_target` flow: nodes from which the target can be reached
in at most `K` directed steps (cumulative breadth-first expansion). -/
def kHopNodes (c : AttackConfig) : Nat → List Nat
  | 0 => [c.target]
  | k + 1 =>
    let prev := kHopNodes c k
    (prev ++ (edgeListOf c).filterMap
      (fun e => if e.2 ∈ prev then some e.1 else none)).dedup

/-- `SGAttack.ego_subgraph`: the `K`-hop node set and the deduplicated
(`u < v`) undirected edge list of the induced subgraph; empty sets when the
target value does not occur in `edge_index` (isolated target). -/
def egoSubgraph (c : AttackConfig) : List Nat × List (Nat × Nat) :=
  if (edgeListOf c).any (fun e => decide (e.1 = c.target ∨ e.2 = c.target)) then
    (kHopNodes c c.K,
      ((edgeListOf c).filter
        (fun e => decide (e.1 ∈ kHopNodes c c.K ∧ e.2 ∈ kHopNodes c c.K))).filter
        (fun e => decide (e.1 < e.2)))
  else ([], [])

/-- `np.union1d` (membership-faithful: `np.union1d` additionally sorts). -/
def listUnion (a b : List Nat) : List Nat :=
  (a ++ b).dedup

/-- The candidate non-edges of `subgraph_processing`: the row-major
influencer×attacker product; pairs already present in the original adjacency
are dropped only when there is more than one influencer. -/
def nonEdgesOf (c : AttackConfig) (influencers attackers : List Nat) :
    List (Nat × Nat) :=
  if 1 < influencers.length then
    (influencers.flatMap (fun i => attackers.map (fun a => (i, a)))).filter
      (fun p => decide (c.A p.1 p.2 = 0))
  else influencers.flatMap (fun i => attackers.map (fun a => (i, a)))

/-- `SGAttack.subgraph_processing` on the `attack_structure = True` path:
candidate non-edges as in `nonEdgesOf`, self-loops over `unique_nodes =
union1d(sub_nodes, attacker_nodes)`, and `edges_all` the concatenation of
the sub-edges, the non-edges, their reverses, and the self-loops. -/
def subgraphProcessing (c : AttackConfig) (influencers attackers : List Nat)
    (subNodes : List Nat) (subEdges : List (Nat × Nat)) : SubG :=
  { edgeIndex := subEdges
    nonEdgeIndex := nonEdgesOf c influencers attackers
    selfLoopNodes := listUnion subNodes attackers
    edgesAll := subEdges ++ subEdges.map Prod.swap ++ nonEdgesOf c influencers attackers ++
      (nonEdgesOf c influencers attackers).map Prod.swap ++
      (listUnion subNodes attackers).map (fun u => (u, u)) }

/-- `SGAttack.get_topk_influencers`: top-`k` indices of the raw non-edge
gradient, mapped to the corresponding attacker endpoints
(`subgraph.non_edge_index[1][topk_nodes]`). -/
def getTopkAttackers (sg1 : SubG) (g : Grad) (k : Nat) : Except String (List Nat) :=
  match topkIdx (buildList sg1.nonEdgeIndex.length g.nonEdge) k with
  | .error s => .error s
  | .ok idxs => .ok (idxs.map (fun i => (sg1.nonEdgeIndex.getD i (0, 0)).2))

/-- `best_wrong_label`: argmax of the logits of the target after subtracting
`1000` at the coordinate of the true label. -/
def bestWrong (c : AttackConfig) : Nat :=
  match argmaxFirst (buildList c.nclass
      (fun j => c.logitsT j - (if j = c.y c.target then 1000 else 0))) with
  | .ok p => p.2
  | .error _ => 0

/-- `torch.where(labels == best_wrong_label)[0]`. -/
def poolOf (c : AttackConfig) : List Nat :=
  (List.range c.n).filter (fun i => decide (c.y i = bestWrong c))

/-- `np.setdiff1d(attacker_nodes, neighbors)` as applied in `get_subgraph`
(the pool is already sorted and duplicate-free). -/
def attackersFiltered (c : AttackConfig) (pool : List Nat) : List Nat :=
  pool.filter (fun a => decide (a ∉ neighborsOf c c.target))

/-- The first-pass subgraph of `get_subgraph`: `influencers = [target]`,
attackers the neighbor-filtered pool. -/
def firstPassSub (c : AttackConfig) (pool : List Nat) : SubG :=
  subgraphProcessing c [c.target] (attackersFiltered c pool)
    (egoSubgraph c).1 (egoSubgraph c).2

/-- `SGAttack.get_subgraph`.  In this repository `n_influencers` is always an
integer (never `None`), so the `self.direct or n_influencers is not None`
test is always true: the first pass uses `influencers = [target]` and the
neighbor-filtered pool, and when `attack_structure` holds the attacker set is
re-derived by one `get_topk_influencers` gradient pass over the first-pass
subgraph (cap `n_perturbations + 1` for direct attacks, `n_influencers` for
indirect ones, where the influencers become the neighbors of the target). -/
def getSubgraph (c : AttackConfig) (pool : List Nat) (g0 : Grad) : Except String SubG :=
  if c.attackStructure then
    if c.direct then
      match getTopkAttackers (firstPassSub c pool) g0 (c.nPerturbations + 1) with
      | .error s => .error s
      | .ok att =>
        .ok (subgraphProcessing c [c.target] att (egoSubgraph c).1 (egoSubgraph c).2)
    else
      match getTopkAttackers (firstPassSub c pool) g0 c.nInfluencers with
      | .error s => .error s
      | .ok att =>
        .ok (subgraphProcessing c (neighborsOf c c.target) att
          (egoSubgraph c).1 (egoSubgraph c).2)
  else .ok (firstPassSub c pool)

/-- The indirect-attack mask over existing subgraph edges: `True` where an
edge touches the target node. -/
def edgeMask (c : AttackConfig) (sg : SubG) (i : Nat) : Bool :=
  decide ((sg.edgeIndex.getD i (0, 0)).1 = c.target ∨
    (sg.edgeIndex.getD i (0, 0)).2 = c.target)

/-- The edge-slot scores after the `(-2w + 1)` re-scoring (line 186). -/
def edgeScore (st : LoopState) (g : Grad) (i : Nat) : ℤ :=
  g.edge i * (-2 * st.edgeWeight i + 1)

/-- The non-edge-slot scores after the `(-2w + 1)` re-scoring (line 187). -/
def nonEdgeScore (st : LoopState) (g : Grad) (i : Nat) : ℤ :=
  g.nonEdge i * (-2 * st.nonEdgeWeight i + 1)

/-- The edge score after the shift by the common minimum `m` and the
indirect-attack masking (`edge_grad -= min_grad; edge_grad[mask] = 0`). -/
def shiftMaskEdge (c : AttackConfig) (sg : SubG) (st : LoopState) (g : Grad)
    (m : ℤ) (i : Nat) : ℤ :=
  if c.direct = false ∧ edgeMask c sg i = true then 0 else edgeScore st g i - m

/-- Structural half of one loop iteration (lines 185–202): when structure
attack is on, shift the re-scored gradients by the common minimum, zero
target-incident edge scores for indirect attacks, and take the maxima.
Returns `(max_edge_grad, max_edge_idx?, max_non_edge_grad, max_non_edge_idx)`
(`max_edge_idx?` is `none` on the empty-edge path, where Python leaves
`max_edge_idx` unbound), or `none` when structure attack is off. -/
def structScores (c : AttackConfig) (sg : SubG) (st : LoopState) (g : Grad) :
    Except String (Option (ℤ × Option Nat × ℤ × Nat)) :=
  if c.attackStructure then
    if 0 < sg.edgeIndex.length then
      match listMin (buildList sg.edgeIndex.length (edgeScore st g)),
          listMin (buildList sg.nonEdgeIndex.length (nonEdgeScore st g)) with
      | .ok emin, .ok nmin =>
        match argmaxFirst (buildList sg.edgeIndex.length
              (shiftMaskEdge c sg st g (min emin nmin))),
            argmaxFirst (buildList sg.nonEdgeIndex.length
              (fun i => nonEdgeScore st g i - min emin nmin)) with
        | .ok pe, .ok pn => .ok (some (pe.1, some pe.2, pn.1, pn.2))
        | .error s, _ => .error s
        | _, .error s => .error s
      | .error s, _ => .error s
      | _, .error s => .error s
    else
      match listMin (buildList sg.nonEdgeIndex.length (nonEdgeScore st g)) with
      | .ok nmin =>
        match argmaxFirst (buildList sg.nonEdgeIndex.length
            (fun i => nonEdgeScore st g i - nmin)) with
        | .ok pn => .ok (some (0, none, pn.1, pn.2))
        | .error s => .error s
      | .error s => .error s
  else .ok none

/-- The raw feature score `features_grad * (-2 * modified_features + 1)`
over flattened feature cells. -/
def featScoreRaw (c : AttackConfig) (st : LoopState) (g : Grad) (i : Nat) : ℤ :=
  g.feature i * (-2 * st.features (i / c.numFeatures) (i % c.numFeatures) + 1)

/-- Feature half of one loop iteration (lines 204–210): re-score, shift to
non-negative, zero the row of the target for indirect attacks, flatten and take
the maximum.  `none` when feature attack is off. -/
def featScores (c : AttackConfig) (st : LoopState) (g : Grad) :
    Except String (Option (ℤ × Nat)) :=
  if c.attackFeatures then
    match listMin (buildList (c.n * c.numFeatures) (featScoreRaw c st g)) with
    | .ok fmin =>
      match argmaxFirst (buildList (c.n * c.numFeatures)
          (fun i => if c.direct = false ∧ i / c.numFeatures = c.target then 0
                    else featScoreRaw c st g i - fmin)) with
      | .ok pf => .ok (some pf)
      | .error s => .error s
    | .error s => .error s
  else .ok none

/-- `max_structure_score` as compared at line 212 (`max(max_edge_grad,
max_non_edge_grad)` when edges exist, `max_non_edge_grad` otherwise, `0`
when structure attack is off). -/
def maxStructureScoreOf (sg : SubG) : Option (ℤ × Option Nat × ℤ × Nat) → ℤ
  | some (maxE, _, maxN, _) =>
    if 0 < sg.edgeIndex.length then max maxE maxN else maxN
  | none => 0

/-- `max_feature_score` as compared at line 212. -/
def maxFeatureScoreOf : Option (ℤ × Nat) → ℤ
  | some mf => mf.1
  | none => 0

/-- The discrete decision of one iteration (lines 182–231 of `sga.py`): compare
the best structural score against the best feature score (structure wins
when feature attack is disabled, via the `or not self.attack_features`
disjunct) and pick the winning slot.  The unreachable Python `NameError`
paths (structural branch chosen while `attack_structure` is off, removal
branch on the empty-edge path, feature branch while `attack_features` is
off) are embedded as errors. -/
def chooseStep (c : AttackConfig) (sg : SubG) (st : LoopState) (g : Grad) :
    Except String StepChoice :=
  match structScores c sg st g with
  | .error s => .error s
  | .ok sres =>
    match featScores c st g with
    | .error s => .error s
    | .ok fres =>
      if maxFeatureScoreOf fres ≤ maxStructureScoreOf sg sres ∨
          c.attackFeatures = false then
        match sres with
        | none => .error "NameError: max_edge_grad"
        | some (maxE, idxE?, maxN, idxN) =>
          if maxN < maxE then
            match idxE? with
            | none => .error "NameError: max_edge_idx"
            | some i =>
              .ok (.rem i (sg.edgeIndex.getD i (0, 0)).1
                (sg.edgeIndex.getD i (0, 0)).2)
          else
            .ok (.add idxN (sg.nonEdgeIndex.getD idxN (0, 0)).1
              (sg.nonEdgeIndex.getD idxN (0, 0)).2)
      else
        match fres with
        | none => .error "NameError: max_feature_idx"
        | some mf => .ok (.feat (mf.2 / c.numFeatures) (mf.2 % c.numFeatures))

/-- Commit a chosen action: clamp the chosen weight slot, update the
selfloop-degree of both endpoints (a single update when they coincide,
matching non-accumulating tensor index assignment), or flip one feature bit;
append the event to the log. -/
def applyChoice (st : LoopState) : StepChoice → LoopState
  | .rem i u v =>
    { st with
      edgeWeight := fun j => if j = i then 0 else st.edgeWeight j
      degree := fun w => if w = u ∨ w = v then st.degree w - 1 else st.degree w
      events := st.events ++ [.removal u v] }
  | .add i u v =>
    { st with
      nonEdgeWeight := fun j => if j = i then 1 else st.nonEdgeWeight j
      degree := fun w => if w = u ∨ w = v then st.degree w + 1 else st.degree w
      events := st.events ++ [.addition u v] }
  | .feat u v =>
    { st with
      features := fun a b =>
        if a = u ∧ b = v then 1 - st.features u v else st.features a b
      events := st.events ++ [.feature u v] }

/-- One iteration of the perturbation loop. -/
def step (c : AttackConfig) (sg : SubG) (st : LoopState) (g : Grad) :
    Except String LoopState :=
  match chooseStep c sg st g with
  | .error s => .error s
  | .ok ch => .ok (applyChoice st ch)

/-- State entering the loop: unit edge weights, zero non-edge weights,
`selfloop_degree = adj.sum(1).A1 + 1`, empty log, original features. -/
def initState (c : AttackConfig) : LoopState :=
  { edgeWeight := fun _ => 1
    nonEdgeWeight := fun _ => 0
    degree := fun v => rowSum c v + 1
    events := []
    features := c.X }

/-- State after `m` iterations of the perturbation loop (iteration `i` draws
gradient oracle entry `i + 1`; entry `0` fed the `get_topk_influencers`
pre-pass). -/
def loopStates (c : AttackConfig) (sg : SubG) (grads : Nat → Grad) :
    Nat → Except String LoopState
  | 0 => .ok (initState c)
  | m + 1 =>
    match loopStates c sg grads m with
    | .error s => .error s
    | .ok st => step c sg st (grads (m + 1))

/-- The pair a committed event was reported (yielded) as. -/
def eventPair : Event → Nat × Nat
  | .removal u v => (u, v)
  | .addition u v => (u, v)
  | .feature u v => (u, v)

/-- `structure_perturbations`: the structural events, in order. -/
def structureLogOf (events : List Event) : List (Nat × Nat) :=
  events.filterMap (fun e =>
    match e with
    | .removal u v => some (u, v)
    | .addition u v => some (u, v)
    | .feature _ _ => none)

/-- `feature_perturbations`: the feature events, in order. -/
def featureLogOf (events : List Event) : List (Nat × Nat) :=
  events.filterMap (fun e =>
    match e with
    | .feature u v => some (u, v)
    | _ => none)

/-- Result materialization (lines 233–240 of `sga.py`).  The chained fancy
assignment `modified_adj[row, col] = modified_adj[col, row] =
1 - modified_adj[row, col].A` computes `1 - original` once, writes all
`(row, col)` positions, then writes all `(col, row)` positions, later writes
overwriting earlier ones; `eliminate_zeros` only prunes the sparse storage
and does not change any entry value.  With an empty log the original
adjacency is returned unchanged (`adj.copy()`). -/
def materialize (A : Nat → Nat → ℤ) (log : List (Nat × Nat)) : Nat → Nat → ℤ :=
  if log.isEmpty then A
  else fun i j =>
    if (j, i) ∈ log then 1 - A j i
    else if (i, j) ∈ log then 1 - A i j
    else A i j

/-- `SGAttack.attack`: the full generator run — best-wrong label and attacker
pool, subgraph construction, `n_perturbations` loop iterations each yielding
one pair, then materialization and the final `yield None` sentinel. -/
def attackRun (c : AttackConfig) (grads : Nat → Grad) : Except String AttackResult :=
  match getSubgraph c (poolOf c) (grads 0) with
  | .error s => .error s
  | .ok sg =>
    match loopStates c sg grads c.nPerturbations with
    | .error s => .error s
    | .ok final =>
      .ok { yields := final.events.map (fun e => some (eventPair e)) ++ [none]
            structureLog := structureLogOf final.events
            featureLog := featureLogOf final.events
            modifiedAdj := materialize c.A (structureLogOf final.events)
            modifiedFeatures := final.features
            degree := final.degree
            events := final.events }

/-- `SGAttack.__init__`: records the inputs and hard-codes
`attack_structure = True` and `attack_features = False` (lines 102–103);
`n`, `nclass`, `numFeatures`, `K` and the logits row of the target stand for
`len(y)` and the data the surrogate model provides. -/
def SGAttackMk (targetIdx : Nat) (X A : Nat → Nat → ℤ) (y : Nat → Nat)
    (n nclass numFeatures K : Nat) (logitsT : Nat → ℤ)
    (direct : Bool) (nInfluencers nPerturbations : Nat) : AttackConfig :=
  { n := n
    A := A
    X := X
    numFeatures := numFeatures
    y := y
    nclass := nclass
    logitsT := logitsT
    K := K
    target := targetIdx
    direct := direct
    nInfluencers := nInfluencers
    nPerturbations := nPerturbations
    attackStructure := true
    attackFeatures := false }

/-- `SGA.__init__` (lines 386–391): constructs the underlying `SGAttack`
without forwarding its own `direct` and `n_influencers` arguments (they are
accepted but unused), so the inner attack always uses the `SGAttack`
defaults `direct=True` and `n_influencers=3`. -/
def SGAMk (targetIdx : Nat) (X A : Nat → Nat → ℤ) (y : Nat → Nat)
    (n nclass numFeatures K : Nat) (logitsT : Nat → ℤ)
    (_direct : Bool) (_nInfluencers : Nat) (nPerturbations : Nat) : AttackConfig :=
  SGAttackMk targetIdx X A y n nclass numFeatures K logitsT true 3 nPerturbations

/-- Default value extraction from an `Except` (used to name concrete states
produced by concrete runs). -/
def exceptGetD {α : Type} (e : Except String α) (d : α) : α :=
  match e with
  | .ok a => a
  | .error _ => d

def dummySG : SubG := ⟨[], [], [], []⟩

def dummyState : LoopState :=
  ⟨fun _ => 0, fun _ => 0, fun _ => 0, [], fun _ _ => 0⟩

/-! ## Helper lemmas on the tensor primitives -/

theorem buildList_length (n : Nat) (f : Nat → ℤ) : (buildList n f).length = n := by
  simp [buildList]

theorem buildList_getD {i n : Nat} (f : Nat → ℤ) (h : i < n) :
    (buildList n f).getD i 0 = f i := by
  simp [buildList, List.getD_eq_getElem?_getD, List.getElem?_map, List.getElem?_range, h]

theorem mem_buildList {x : ℤ} {n : Nat} {f : Nat → ℤ} :
    x ∈ buildList n f ↔ ∃ i, i < n ∧ f i = x := by
  simp [buildList]

theorem foldl_min_le_init (l : List ℤ) (a : ℤ) : l.foldl min a ≤ a := by
  induction l generalizing a with
  | nil => simp
  | cons x xs ih =>
    simpa using le_trans (ih (min a x)) (min_le_left a x)

theorem foldl_min_le_mem {l : List ℤ} {x : ℤ} (h : x ∈ l) (a : ℤ) :
    l.foldl min a ≤ x := by
  induction l generalizing a with
  | nil => cases h
  | cons y ys ih =>
    rcases List.mem_cons.mp h with rfl | hy
    · exact le_trans (foldl_min_le_init ys (min a x)) (min_le_right a x)
    · exact ih hy (min a y)

theorem listMin_le {l : List ℤ} {v : ℤ} (h : listMin l = .ok v) :
    ∀ x ∈ l, v ≤ x := by
  cases l with
  | nil => simp [listMin] at h
  | cons y ys =>
    simp only [listMin, Except.ok.injEq] at h
    intro x hx
    rcases List.mem_cons.mp hx with rfl | hx
    · exact h ▸ foldl_min_le_init ys x
    · exact h ▸ foldl_min_le_mem hx y

theorem argmaxAux_spec (xs : List ℤ) (b : ℤ) (bi i : Nat) :
    ((argmaxAux b bi i xs = (b, bi)) ∨
      ∃ k, k < xs.length ∧ argmaxAux b bi i xs = (xs.getD k 0, i + k)) ∧
    b ≤ (argmaxAux b bi i xs).1 ∧ ∀ y ∈ xs, y ≤ (argmaxAux b bi i xs).1 := by
  induction xs generalizing b bi i with
  | nil => simp [argmaxAux]
  | cons x xs ih =>
    by_cases hbx : b < x
    · have h := ih x i (i + 1)
      have hres : argmaxAux b bi i (x :: xs) = argmaxAux x i (i + 1) xs := by
        simp [argmaxAux, hbx]
      refine ⟨?_, ?_, ?_⟩
      · right
        rcases h.1 with heq | ⟨k, hk, heq⟩
        · exact ⟨0, by simp, by simp [hres, heq]⟩
        · refine ⟨k + 1, by simpa using hk, ?_⟩
          rw [hres, heq, List.getD_cons_succ]
          congr 1
          omega
      · rw [hres]; exact le_trans (le_of_lt hbx) h.2.1
      · intro y hy
        rw [hres]
        rcases List.mem_cons.mp hy with rfl | hy
        · exact h.2.1
        · exact h.2.2 y hy
    · have h := ih b bi (i + 1)
      have hres : argmaxAux b bi i (x :: xs) = argmaxAux b bi (i + 1) xs := by
        simp [argmaxAux, hbx]
      refine ⟨?_, ?_, ?_⟩
      · rcases h.1 with heq | ⟨k, hk, heq⟩
        · left; rw [hres, heq]
        · right
          refine ⟨k + 1, by simpa using hk, ?_⟩
          rw [hres, heq, List.getD_cons_succ]
          congr 1
          omega
      · rw [hres]; exact h.2.1
      · intro y hy
        rw [hres]
        rcases List.mem_cons.mp hy with rfl | hy
        · exact le_trans (le_of_not_lt hbx) h.2.1
        · exact h.2.2 y hy

theorem argmaxFirst_ok {l : List ℤ} {v : ℤ} {i : Nat}
    (h : argmaxFirst l = .ok (v, i)) :
    i < l.length ∧ l.getD i 0 = v ∧ ∀ x ∈ l, x ≤ v := by
  cases l with
  | nil => simp [argmaxFirst] at h
  | cons x xs =>
    simp only [argmaxFirst, Except.ok.injEq] at h
    have hs := argmaxAux_spec xs x 0 1
    rw [h] at hs
    rcases hs.1 with heq | ⟨k, hk, heq⟩
    · have hv : v = x := congrArg Prod.fst heq
      have hi : i = 0 := congrArg Prod.snd heq
      subst hv; subst hi
      refine ⟨by simp, by simp, ?_⟩
      intro z hz
      rcases List.mem_cons.mp hz with rfl | hz
      · exact hs.2.1
      · exact hs.2.2 z hz
    · have hv : v = xs.getD k 0 := congrArg Prod.fst heq
      have hi : i = 1 + k := congrArg Prod.snd heq
      subst hv; subst hi
      refine ⟨by simp; omega, ?_, ?_⟩
      · have : 1 + k = k + 1 := by omega
        rw [this, List.getD_cons_succ]
      · intro z hz
        rcases List.mem_cons.mp hz with rfl | hz
        · exact hs.2.1
        · exact hs.2.2 z hz

theorem mem_insertIdx {l : List ℤ} {x i : Nat} {s : List Nat} :
    x ∈ insertIdx l i s ↔ x = i ∨ x ∈ s := by
  induction s with
  | nil => simp [insertIdx]
  | cons j js ih =>
    simp only [insertIdx]
    split
    · simp
    · simp [ih]
      tauto

theorem foldr_insertIdx_mem {l : List ℤ} {r s : List Nat} {x : Nat}
    (h : x ∈ r.foldr (insertIdx l) s) : x ∈ r ∨ x ∈ s := by
  induction r with
  | nil => exact Or.inr h
  | cons a r ih =>
    simp only [List.foldr_cons] at h
    rcases mem_insertIdx.mp h with rfl | h2
    · left; simp
    · rcases ih h2 with h3 | h3
      · left; simp [h3]
      · right; exact h3

theorem mem_sortIdxDesc {l : List ℤ} {x : Nat} (h : x ∈ sortIdxDesc l) :
    x < l.length := by
  unfold sortIdxDesc at h
  rcases foldr_insertIdx_mem h with h | h
  · exact List.mem_range.mp h
  · cases h

theorem topkIdx_ok_lt {l : List ℤ} {k : Nat} {idxs : List Nat}
    (h : topkIdx l k = .ok idxs) : ∀ i ∈ idxs, i < l.length := by
  unfold topkIdx at h
  split at h
  · cases h
  · simp only [Except.ok.injEq] at h
    intro i hi
    exact mem_sortIdxDesc (List.mem_of_mem_take (h ▸ hi))

theorem getD_mem_of_lt {α : Type} {l : List α} {i : Nat} (d : α)
    (h : i < l.length) : l.getD i d ∈ l := by
  rw [List.getD_eq_getElem?_getD, List.getElem?_eq_getElem h]
  exact List.getElem_mem h

/-! ## Inversion lemmas for the perturbation loop -/

theorem step_ok_inv {c : AttackConfig} {sg : SubG} {st st' : LoopState} {g : Grad}
    (h : step c sg st g = .ok st') :
    ∃ ch, chooseStep c sg st g = .ok ch ∧ st' = applyChoice st ch := by
  unfold step at h
  cases hch : chooseStep c sg st g with
  | error s => rw [hch] at h; cases h
  | ok ch =>
    rw [hch] at h
    exact ⟨ch, rfl, (Except.ok.inj h).symm⟩

theorem loopStates_succ_inv {c : AttackConfig} {sg : SubG} {grads : Nat → Grad}
    {m : Nat} {st' : LoopState}
    (h : loopStates c sg grads (m + 1) = .ok st') :
    ∃ st ch, loopStates c sg grads m = .ok st ∧
      chooseStep c sg st (grads (m + 1)) = .ok ch ∧ st' = applyChoice st ch := by
  rw [loopStates] at h
  cases hm : loopStates c sg grads m with
  | error s => rw [hm] at h; cases h
  | ok st =>
    rw [hm] at h
    obtain ⟨ch, h1, h2⟩ := step_ok_inv h
    exact ⟨st, ch, rfl, h1, h2⟩

theorem attackRun_ok_inv {c : AttackConfig} {grads : Nat → Grad} {r : AttackResult}
    (h : attackRun c grads = .ok r) :
    ∃ sg final, getSubgraph c (poolOf c) (grads 0) = .ok sg ∧
      loopStates c sg grads c.nPerturbations = .ok final ∧
      r.events = final.events ∧
      r.structureLog = structureLogOf final.events ∧
      r.featureLog = featureLogOf final.events ∧
      r.yields = final.events.map (fun e => some (eventPair e)) ++ [none] ∧
      r.modifiedAdj = materialize c.A (structureLogOf final.events) ∧
      r.modifiedFeatures = final.features ∧
      r.degree = final.degree := by
  unfold attackRun at h
  split at h
  · cases h
  · rename_i sg hsg
    split at h
    · cases h
    · rename_i final hst
      have hr := (Except.ok.inj h).symm
      exact ⟨sg, final, hsg, hst, by rw [hr], by rw [hr], by rw [hr], by rw [hr],
        by rw [hr], by rw [hr], by rw [hr]⟩

/-- Inversion of the structural score computation: the non-edge argmax index
is in range, the shifted non-edge maximum is non-negative, and whenever an
edge argmax index was produced the edge list is non-empty and (for indirect
attacks) a masked argmax forces the edge maximum to be zero. -/
theorem structScores_some_inv {c : AttackConfig} {sg : SubG} {st : LoopState}
    {g : Grad} {maxE : ℤ} {idxE? : Option Nat} {maxN : ℤ} {idxN : Nat}
    (h : structScores c sg st g = .ok (some (maxE, idxE?, maxN, idxN))) :
    idxN < sg.nonEdgeIndex.length ∧ 0 ≤ maxN ∧
      ∀ i, idxE? = some i →
        0 < sg.edgeIndex.length ∧
          (c.direct = false → edgeMask c sg i = true → maxE = 0) := by
  unfold structScores at h
  split at h
  · split at h
    · split at h
      · rename_i emin nmin h1 h2
        split at h
        · rename_i pe pn h3 h4
          obtain ⟨vE, iE⟩ := pe
          obtain ⟨vN, iN⟩ := pn
          simp only [Except.ok.injEq, Option.some.injEq, Prod.mk.injEq] at h
          obtain ⟨hvE, hiE, hvN, hiN⟩ := h
          obtain ⟨hlN, hgN, _⟩ := argmaxFirst_ok h4
          rw [buildList_length] at hlN
          refine ⟨hiN ▸ hlN, ?_, ?_⟩
          · have hmem : nonEdgeScore st g iN ∈
                buildList sg.nonEdgeIndex.length (nonEdgeScore st g) :=
              mem_buildList.mpr ⟨iN, hlN, rfl⟩
            have hle : nmin ≤ nonEdgeScore st g iN := listMin_le h2 _ hmem
            have hnn : (0 : ℤ) ≤ nonEdgeScore st g iN - min emin nmin := by
              have := min_le_right emin nmin
              linarith
            rw [← hvN, ← hgN, buildList_getD _ hlN]
            exact hnn
          · intro i hi
            rw [← hiE] at hi
            injection hi with hi
            subst hi
            refine ⟨by assumption, ?_⟩
            intro hdir hmask
            obtain ⟨hlE, hgE, _⟩ := argmaxFirst_ok h3
            rw [buildList_length] at hlE
            rw [← hvE, ← hgE, buildList_getD _ hlE, shiftMaskEdge,
              if_pos ⟨hdir, hmask⟩]
        · cases h
        · cases h
      · cases h
      · cases h
    · split at h
      · rename_i nmin h2
        split at h
        · rename_i pn h4
          obtain ⟨vN, iN⟩ := pn
          simp only [Except.ok.injEq, Option.some.injEq, Prod.mk.injEq] at h
          obtain ⟨hvE, hiE, hvN, hiN⟩ := h
          obtain ⟨hlN, hgN, _⟩ := argmaxFirst_ok h4
          rw [buildList_length] at hlN
          refine ⟨hiN ▸ hlN, ?_, ?_⟩
          · have hmem : nonEdgeScore st g iN ∈
                buildList sg.nonEdgeIndex.length (nonEdgeScore st g) :=
              mem_buildList.mpr ⟨iN, hlN, rfl⟩
            have hle : nmin ≤ nonEdgeScore st g iN := listMin_le h2 _ hmem
            have hnn : (0 : ℤ) ≤ nonEdgeScore st g iN - nmin := by linarith
            rw [← hvN, ← hgN, buildList_getD _ hlN]
            exact hnn
          · intro i hi
            rw [← hiE] at hi
            cases hi
        · cases h
      · cases h
  · cases h

/-- When feature attack is disabled every committed action is structural:
it removes the edge slot the masked edge argmax selected (never a
target-incident edge in the indirect case) or adds the non-edge slot the
non-edge argmax selected. -/
theorem chooseStep_ok_cases {c : AttackConfig} {sg : SubG} {st : LoopState}
    {g : Grad} {ch : StepChoice} (haf : c.attackFeatures = false)
    (h : chooseStep c sg st g = .ok ch) :
    (∃ i, 0 < sg.edgeIndex.length ∧
        ch = .rem i (sg.edgeIndex.getD i (0, 0)).1 (sg.edgeIndex.getD i (0, 0)).2 ∧
        (c.direct = false → edgeMask c sg i = false)) ∨
    (∃ i, i < sg.nonEdgeIndex.length ∧
        ch = .add i (sg.nonEdgeIndex.getD i (0, 0)).1 (sg.nonEdgeIndex.getD i (0, 0)).2) := by
  unfold chooseStep at h
  split at h
  · cases h
  · rename_i sres hs
    split at h
    · cases h
    · rename_i fres hf
      rw [if_pos (Or.inr haf)] at h
      cases sres with
      | none => cases h
      | some q =>
        obtain ⟨maxE, idxE?, maxN, idxN⟩ := q
        simp only [] at h
        have hinv := structScores_some_inv hs
        by_cases hlt : maxN < maxE
        · rw [if_pos hlt] at h
          cases idxE? with
          | none => cases h
          | some i =>
            left
            refine ⟨i, (hinv.2.2 i rfl).1, (Except.ok.inj h).symm, ?_⟩
            intro hdir
            by_contra hmask
            have hmask' : edgeMask c sg i = true := by
              cases hmk : edgeMask c sg i
              · exact absurd hmk hmask
              · rfl
            have h0 : maxE = 0 := (hinv.2.2 i rfl).2 hdir hmask'
            have := hinv.2.1
            rw [h0] at hlt
            exact absurd hlt (not_lt.mpr this)
        · rw [if_neg hlt] at h
          right
          exact ⟨idxN, hinv.1, (Except.ok.inj h).symm⟩

/-! ## Loop bookkeeping -/

/-- The event an applied choice logs. -/
def eventOfChoice : StepChoice → Event
  | .rem _ u v => .removal u v
  | .add _ u v => .addition u v
  | .feat u v => .feature u v

/-- Whether an addition event touches node `v`. -/
def isAddTouching (v : Nat) : Event → Bool
  | .addition a b => decide (v = a ∨ v = b)
  | _ => false

/-- Whether a removal event touches node `v`. -/
def isRemTouching (v : Nat) : Event → Bool
  | .removal a b => decide (v = a ∨ v = b)
  | _ => false

theorem applyChoice_events (st : LoopState) (ch : StepChoice) :
    (applyChoice st ch).events = st.events ++ [eventOfChoice ch] := by
  cases ch <;> rfl

theorem applyChoice_features_of_structural (st : LoopState) (ch : StepChoice)
    (h : ∀ u v, ch ≠ .feat u v) :
    (applyChoice st ch).features = st.features := by
  cases ch with
  | rem i u v => rfl
  | add i u v => rfl
  | feat u v => exact absurd rfl (h u v)

theorem applyChoice_degree (st : LoopState) (ch : StepChoice) (v : Nat) :
    (applyChoice st ch).degree v =
      st.degree v + (if isAddTouching v (eventOfChoice ch) then 1 else 0)
        - (if isRemTouching v (eventOfChoice ch) then 1 else 0) := by
  cases ch with
  | rem i a b =>
    by_cases hv : v = a ∨ v = b <;>
      simp [applyChoice, eventOfChoice, isAddTouching, isRemTouching, hv]
  | add i a b =>
    by_cases hv : v = a ∨ v = b <;>
      simp [applyChoice, eventOfChoice, isAddTouching, isRemTouching, hv]
  | feat a b =>
    simp [applyChoice, eventOfChoice, isAddTouching, isRemTouching]

theorem filter_append_singleton_length {α : Type} (p : α → Bool)
    (es : List α) (e : α) :
    ((es ++ [e]).filter p).length =
      (es.filter p).length + (if p e then 1 else 0) := by
  rw [List.filter_append]
  cases h : p e <;> simp [h]

theorem loopStates_zero_inv {c : AttackConfig} {sg : SubG} {grads : Nat → Grad}
    {st : LoopState} (h : loopStates c sg grads 0 = .ok st) : st = initState c := by
  simp only [loopStates, Except.ok.injEq] at h
  exact h.symm

theorem loopStates_events_length {c : AttackConfig} {sg : SubG}
    {grads : Nat → Grad} {m : Nat} {st : LoopState}
    (h : loopStates c sg grads m = .ok st) : st.events.length = m := by
  induction m generalizing st with
  | zero => rw [loopStates_zero_inv h]; rfl
  | succ m ih =>
    obtain ⟨st0, ch, h0, hch, rfl⟩ := loopStates_succ_inv h
    rw [applyChoice_events]
    simp [ih h0]

/-- The running selfloop-degree after `m` iterations: original row sum plus
one, plus the number of logged additions touching `v`, minus the number of
logged removals touching `v`. -/
theorem loopStates_degree {c : AttackConfig} {sg : SubG} {grads : Nat → Grad}
    {m : Nat} {st : LoopState} (h : loopStates c sg grads m = .ok st) (v : Nat) :
    st.degree v = rowSum c v + 1 +
      ((st.events.filter (isAddTouching v)).length : ℤ) -
      ((st.events.filter (isRemTouching v)).length : ℤ) := by
  induction m generalizing st with
  | zero =>
    rw [loopStates_zero_inv h]
    simp [initState]
  | succ m ih =>
    obtain ⟨st0, ch, h0, hch, rfl⟩ := loopStates_succ_inv h
    rw [applyChoice_degree, applyChoice_events, ih h0,
      filter_append_singleton_length, filter_append_singleton_length]
    push_cast
    cases ha : isAddTouching v (eventOfChoice ch) <;>
      cases hr : isRemTouching v (eventOfChoice ch) <;> simp <;> ring

theorem structureLog_featureLog_length (events : List Event) :
    (structureLogOf events).length + (featureLogOf events).length =
      events.length := by
  induction events with
  | nil => simp [structureLogOf, featureLogOf]
  | cons e es ih =>
    cases e <;>
      simp only [structureLogOf, featureLogOf, List.filterMap_cons,
        List.length_cons] at ih ⊢ <;>
      omega

theorem structureLogOf_removal (u v : Nat) :
    structureLogOf [Event.removal u v] = [(u, v)] := rfl

theorem structureLogOf_addition (u v : Nat) :
    structureLogOf [Event.addition u v] = [(u, v)] := rfl

theorem structureLogOf_append (a b : List Event) :
    structureLogOf (a ++ b) = structureLogOf a ++ structureLogOf b := by
  simp [structureLogOf, List.filterMap_append]

theorem structureLogOf_all_structural {events : List Event}
    (h : ∀ e ∈ events, ∀ u v, e ≠ Event.feature u v) :
    structureLogOf events = events.map eventPair ∧ featureLogOf events = [] := by
  induction events with
  | nil => simp [structureLogOf, featureLogOf]
  | cons e es ih =>
    have he := h e (by simp)
    obtain ⟨h1, h2⟩ := ih (fun x hx => h x (by simp [hx]))
    cases e with
    | removal u v =>
      simp [structureLogOf, featureLogOf, List.filterMap_cons, eventPair,
        h1, h2] at *
      exact ⟨h1, h2⟩
    | addition u v =>
      simp [structureLogOf, featureLogOf, List.filterMap_cons, eventPair,
        h1, h2] at *
      exact ⟨h1, h2⟩
    | feature u v => exact absurd rfl (he u v)

/-! ## Subgraph construction lemmas -/

theorem mem_listUnion {x : Nat} {a b : List Nat} :
    x ∈ listUnion a b ↔ x ∈ a ∨ x ∈ b := by
  simp [listUnion]

theorem mem_nonEdgesOf {c : AttackConfig} {infl att : List Nat} {p : Nat × Nat}
    (h : p ∈ nonEdgesOf c infl att) : p.1 ∈ infl ∧ p.2 ∈ att := by
  unfold nonEdgesOf at h
  have hp : p ∈ infl.flatMap (fun i => att.map (fun a => (i, a))) := by
    split at h
    · exact (List.mem_filter.mp h).1
    · exact h
  simp only [List.mem_flatMap, List.mem_map] at hp
  obtain ⟨i, hi, a, ha, heq⟩ := hp
  rw [← heq]
  exact ⟨hi, ha⟩

theorem subgraphProcessing_nonEdgeIndex (c : AttackConfig)
    (infl att sn : List Nat) (sed : List (Nat × Nat)) :
    (subgraphProcessing c infl att sn sed).nonEdgeIndex = nonEdgesOf c infl att :=
  rfl

theorem subgraphProcessing_edgeIndex (c : AttackConfig)
    (infl att sn : List Nat) (sed : List (Nat × Nat)) :
    (subgraphProcessing c infl att sn sed).edgeIndex = sed :=
  rfl

theorem mem_attackersFiltered {c : AttackConfig} {pool : List Nat} {a : Nat} :
    a ∈ attackersFiltered c pool ↔ a ∈ pool ∧ a ∉ neighborsOf c c.target := by
  simp [attackersFiltered]

theorem getTopkAttackers_mem {sg1 : SubG} {g : Grad} {k : Nat} {att : List Nat}
    (h : getTopkAttackers sg1 g k = .ok att) :
    ∀ a ∈ att, ∃ p ∈ sg1.nonEdgeIndex, a = p.2 := by
  unfold getTopkAttackers at h
  split at h
  · cases h
  · rename_i idxs hidx
    have hatt := (Except.ok.inj h).symm
    intro a ha
    rw [hatt] at ha
    simp only [List.mem_map] at ha
    obtain ⟨i, hi, heq⟩ := ha
    have hlt := topkIdx_ok_lt hidx i hi
    rw [buildList_length] at hlt
    exact ⟨sg1.nonEdgeIndex.getD i (0, 0), getD_mem_of_lt (0, 0) hlt, heq.symm⟩

theorem getSubgraph_ok_cases {c : AttackConfig} {pool : List Nat} {g0 : Grad}
    {sg : SubG} (has : c.attackStructure = true)
    (h : getSubgraph c pool g0 = .ok sg) :
    ∃ att : List Nat,
      (∀ a ∈ att, a ∈ pool ∧ a ∉ neighborsOf c c.target) ∧
      ((c.direct = true ∧
          sg = subgraphProcessing c [c.target] att
            (egoSubgraph c).1 (egoSubgraph c).2) ∨
       (c.direct = false ∧
          sg = subgraphProcessing c (neighborsOf c c.target) att
            (egoSubgraph c).1 (egoSubgraph c).2)) := by
  unfold getSubgraph at h
  rw [has] at h
  simp only [if_true] at h
  have hattOf : ∀ k att, getTopkAttackers (firstPassSub c pool) g0 k = .ok att →
      ∀ a ∈ att, a ∈ pool ∧ a ∉ neighborsOf c c.target := by
    intro k att hk a ha
    obtain ⟨p, hp, rfl⟩ := getTopkAttackers_mem hk a ha
    have := mem_nonEdgesOf (p := p) (by
      simpa [firstPassSub, subgraphProcessing] using hp)
    exact mem_attackersFiltered.mp this.2
  cases hd : c.direct with
  | true =>
    rw [hd] at h
    simp only [if_true] at h
    split at h
    · cases h
    · rename_i att hk
      exact ⟨att, hattOf _ _ hk, Or.inl ⟨rfl, (Except.ok.inj h).symm⟩⟩
  | false =>
    rw [hd] at h
    simp only [Bool.false_eq_true, if_false] at h
    split at h
    · cases h
    · rename_i att hk
      exact ⟨att, hattOf _ _ hk, Or.inr ⟨rfl, (Except.ok.inj h).symm⟩⟩

/-! ## Materializer lemmas -/

theorem materialize_not_mem {A : Nat → Nat → ℤ} {log : List (Nat × Nat)}
    {i j : Nat} (hij : (i, j) ∉ log) (hji : (j, i) ∉ log) :
    materialize A log i j = A i j := by
  unfold materialize
  split
  · rfl
  · simp only []
    rw [if_neg hji, if_neg hij]

theorem materialize_mem {A : Nat → Nat → ℤ} {log : List (Nat × Nat)}
    (hsym : ∀ a b, A a b = A b a) {u v : Nat} (h : (u, v) ∈ log) :
    materialize A log u v = 1 - A u v ∧ materialize A log v u = 1 - A v u := by
  unfold materialize
  split
  · rename_i hemp
    rw [List.isEmpty_iff] at hemp
    rw [hemp] at h
    cases h
  · simp only []
    constructor
    · by_cases hvu : (v, u) ∈ log
      · rw [if_pos hvu, hsym v u]
      · rw [if_neg hvu, if_pos h]
    · rw [if_pos h, hsym u v]

theorem materialize_symm {A : Nat → Nat → ℤ} {log : List (Nat × Nat)}
    (hsym : ∀ a b, A a b = A b a) (i j : Nat) :
    materialize A log i j = materialize A log j i := by
  unfold materialize
  split
  · exact hsym i j
  · simp only []
    by_cases h1 : (j, i) ∈ log
    · rw [if_pos h1]
      by_cases h2 : (i, j) ∈ log
      · rw [if_pos h2, hsym j i]
      · rw [if_neg h2, if_pos h1]
    · rw [if_neg h1]
      by_cases h2 : (i, j) ∈ log
      · rw [if_pos h2, if_pos h2]
      · rw [if_neg h2, if_neg h2, if_neg h1, hsym i j]

/-! ## Edge-list, k-hop ball and ego-subgraph lemmas -/

theorem mem_edgeListOf {c : AttackConfig} {u v : Nat} :
    (u, v) ∈ edgeListOf c ↔ u < c.n ∧ v < c.n ∧ c.A u v ≠ 0 := by
  simp only [edgeListOf, List.mem_flatMap, List.mem_filterMap, List.mem_range]
  constructor
  · rintro ⟨i, hi, j, hj, hij⟩
    split at hij
    · rename_i hne
      injection hij with hij
      injection hij with h1 h2
      subst h1
      subst h2
      exact ⟨hi, hj, hne⟩
    · cases hij
  · rintro ⟨hu, hv, hne⟩
    exact ⟨u, hu, v, hv, by rw [if_pos hne]⟩

theorem target_mem_kHopNodes (c : AttackConfig) : ∀ k, c.target ∈ kHopNodes c k
  | 0 => by simp [kHopNodes]
  | k + 1 => by
    simp only [kHopNodes, List.mem_dedup, List.mem_append]
    exact Or.inl (target_mem_kHopNodes c k)

theorem kHopNodes_subset_succ {c : AttackConfig} {x k : Nat}
    (h : x ∈ kHopNodes c k) : x ∈ kHopNodes c (k + 1) := by
  simp only [kHopNodes, List.mem_dedup, List.mem_append]
  exact Or.inl h

theorem kHopNodes_mono {c : AttackConfig} {x : Nat} {k m : Nat} (hkm : k ≤ m)
    (h : x ∈ kHopNodes c k) : x ∈ kHopNodes c m := by
  induction hkm with
  | refl => exact h
  | step _ ih => exact kHopNodes_subset_succ ih

theorem mem_neighborsOf {c : AttackConfig} {v j : Nat} :
    j ∈ neighborsOf c v ↔ j < c.n ∧ c.A v j ≠ 0 := by
  simp [neighborsOf]

theorem neighbor_mem_kHopNodes {c : AttackConfig}
    (hsym : ∀ i j, c.A i j = c.A j i) (ht : c.target < c.n) {nb : Nat}
    (hnb : nb ∈ neighborsOf c c.target) {k : Nat} (hk : 0 < k) :
    nb ∈ kHopNodes c k := by
  obtain ⟨hn, hne⟩ := mem_neighborsOf.mp hnb
  have h1 : nb ∈ kHopNodes c 1 := by
    simp only [kHopNodes, List.mem_dedup, List.mem_append]
    right
    simp only [List.mem_filterMap]
    refine ⟨(nb, c.target), ?_, ?_⟩
    · exact mem_edgeListOf.mpr ⟨hn, ht, by rw [hsym]; exact hne⟩
    · rw [if_pos (by simp [kHopNodes])]
  exact kHopNodes_mono hk h1

theorem egoSubgraph_isolated {c : AttackConfig}
    (hrow : ∀ j, c.A c.target j = 0) (hcol : ∀ i, c.A i c.target = 0) :
    egoSubgraph c = ([], []) := by
  unfold egoSubgraph
  rw [if_neg]
  intro hany
  rw [List.any_eq_true] at hany
  obtain ⟨e, he, hor⟩ := hany
  obtain ⟨u, v⟩ := e
  rw [decide_eq_true_eq] at hor
  have hm := mem_edgeListOf.mp he
  rcases hor with h | h
  · simp only [] at h
    rw [h] at hm
    exact hm.2.2 (hrow v)
  · simp only [] at h
    rw [h] at hm
    exact hm.2.2 (hcol u)

theorem egoSubgraph_nonisolated {c : AttackConfig} (ht : c.target < c.n)
    (hni : ∃ j, j < c.n ∧ c.A c.target j ≠ 0) :
    egoSubgraph c = (kHopNodes c c.K,
      ((edgeListOf c).filter
        (fun e => decide (e.1 ∈ kHopNodes c c.K ∧ e.2 ∈ kHopNodes c c.K))).filter
        (fun e => decide (e.1 < e.2))) := by
  unfold egoSubgraph
  rw [if_pos]
  obtain ⟨j, hj, hne⟩ := hni
  rw [List.any_eq_true]
  exact ⟨(c.target, j), mem_edgeListOf.mpr ⟨ht, hj, hne⟩, by simp⟩

theorem egoSubgraph_edge_mem {c : AttackConfig} {ns : List Nat}
    {es : List (Nat × Nat)} (hego : egoSubgraph c = (ns, es)) {e : Nat × Nat}
    (h : e ∈ es) : e.1 ∈ ns ∧ e.2 ∈ ns := by
  unfold egoSubgraph at hego
  split at hego
  · injection hego with h1 h2
    subst h1
    subst h2
    have h3 := (List.mem_filter.mp h).1
    have h4 := (List.mem_filter.mp h3).2
    rw [decide_eq_true_eq] at h4
    exact h4
  · injection hego with h1 h2
    subst h2
    cases h

theorem subgraphProcessing_endpoints {c : AttackConfig} {infl att sn : List Nat}
    {sed : List (Nat × Nat)}
    (hsed : ∀ e ∈ sed, e.1 ∈ sn ∧ e.2 ∈ sn)
    (hinfl : ∀ i ∈ infl, i ∈ sn) :
    ∀ e ∈ (subgraphProcessing c infl att sn sed).edgesAll,
      e.1 ∈ (subgraphProcessing c infl att sn sed).selfLoopNodes ∧
      e.2 ∈ (subgraphProcessing c infl att sn sed).selfLoopNodes := by
  intro e he
  have hU : ∀ x : Nat, (x ∈ sn ∨ x ∈ att) → x ∈ listUnion sn att :=
    fun x hx => mem_listUnion.mpr hx
  show e.1 ∈ listUnion sn att ∧ e.2 ∈ listUnion sn att
  simp only [subgraphProcessing, List.mem_append] at he
  rcases he with ((((h | h) | h) | h) | h)
  · exact ⟨hU _ (Or.inl (hsed e h).1), hU _ (Or.inl (hsed e h).2)⟩
  · simp only [List.mem_map] at h
    obtain ⟨f, hf, rfl⟩ := h
    exact ⟨hU _ (Or.inl (hsed f hf).2), hU _ (Or.inl (hsed f hf).1)⟩
  · have hm := mem_nonEdgesOf h
    exact ⟨hU _ (Or.inl (hinfl _ hm.1)), hU _ (Or.inr hm.2)⟩
  · simp only [List.mem_map] at h
    obtain ⟨f, hf, rfl⟩ := h
    have hm := mem_nonEdgesOf hf
    exact ⟨hU _ (Or.inr hm.2), hU _ (Or.inl (hinfl _ hm.1))⟩
  · simp only [List.mem_map] at h
    obtain ⟨u, hu, rfl⟩ := h
    exact ⟨hu, hu⟩

theorem getSubgraph_error_of_empty {c : AttackConfig} {pool : List Nat}
    {g0 : Grad} (has : c.attackStructure = true) (hd : c.direct = true)
    (hpool : attackersFiltered c pool = []) :
    getSubgraph c pool g0 = .error "topk(): selected index k out of range" := by
  have hsg1 : (firstPassSub c pool).nonEdgeIndex = [] := by
    simp [firstPassSub, subgraphProcessing, nonEdgesOf, hpool]
  have htk : getTopkAttackers (firstPassSub c pool) g0 (c.nPerturbations + 1) =
      .error "topk(): selected index k out of range" := by
    unfold getTopkAttackers topkIdx
    rw [hsg1]
    simp [buildList]
  unfold getSubgraph
  rw [has, hd]
  simp only [if_true]
  rw [htk]

theorem attackRun_error_of_empty {c : AttackConfig} (grads : Nat → Grad)
    (has : c.attackStructure = true) (hd : c.direct = true)
    (hpool : attackersFiltered c (poolOf c) = []) :
    attackRun c grads = .error "topk(): selected index k out of range" := by
  unfold attackRun
  rw [getSubgraph_error_of_empty has hd hpool]

/-- When feature attack is off, every event of a run is structural and the
feature matrix never changes. -/
theorem loopStates_structural {c : AttackConfig} {sg : SubG} {grads : Nat → Grad}
    {m : Nat} {st : LoopState} (haf : c.attackFeatures = false)
    (h : loopStates c sg grads m = .ok st) :
    (∀ e ∈ st.events, ∀ u v, e ≠ Event.feature u v) ∧ st.features = c.X := by
  induction m generalizing st with
  | zero =>
    rw [loopStates_zero_inv h]
    exact ⟨by simp [initState], rfl⟩
  | succ m ih =>
    obtain ⟨st0, ch, h0, hch, rfl⟩ := loopStates_succ_inv h
    obtain ⟨hevs, hfeat⟩ := ih h0
    have hcases := chooseStep_ok_cases haf hch
    have hch_shape : ∀ u v, ch ≠ StepChoice.feat u v := by
      rcases hcases with ⟨i, _, hsh, _⟩ | ⟨i, _, hsh⟩ <;>
        (intro u v hcontra; rw [hcontra] at hsh; cases hsh)
    constructor
    · intro e he u v
      rw [applyChoice_events] at he
      rcases List.mem_append.mp he with he | he
      · exact hevs e he u v
      · rcases hcases with ⟨i, _, hsh, _⟩ | ⟨i, _, hsh⟩ <;>
          (rw [List.mem_singleton] at he; rw [he, hsh]; intro hcontra; cases hcontra)
    · rw [applyChoice_features_of_structural st0 ch hch_shape]
      exact hfeat

theorem mem_poolOf {c : AttackConfig} {a : Nat} :
    a ∈ poolOf c ↔ a < c.n ∧ c.y a = bestWrong c := by
  simp [poolOf]

theorem neighborsOf_isolated {c : AttackConfig}
    (hrow : ∀ j, c.A c.target j = 0) : neighborsOf c c.target = [] := by
  simp [neighborsOf, hrow]

theorem rowSum_isolated {c : AttackConfig} (hrow : ∀ j, c.A c.target j = 0) :
    rowSum c c.target = 0 := by
  simp [rowSum, hrow]

theorem rowSum_eq_card {c : AttackConfig} {v : Nat}
    (h01 : ∀ i j, c.A i j = 0 ∨ c.A i j = 1) :
    rowSum c v = ((neighborsOf c v).length : ℤ) := by
  unfold rowSum neighborsOf
  induction List.range c.n with
  | nil => simp
  | cons a l ih =>
    rcases h01 v a with h | h
    · simp only [List.map_cons, List.sum_cons, List.filter_cons, h]
      rw [ih]
      norm_num
    · simp only [List.map_cons, List.sum_cons, List.filter_cons, h]
      rw [ih]
      norm_num
      ring

theorem adjOfEdges_01 (es : List (Nat × Nat)) (i j : Nat) :
    adjOfEdges es i j = 0 ∨ adjOfEdges es i j = 1 := by
  unfold adjOfEdges
  split
  · exact Or.inr rfl
  · exact Or.inl rfl

theorem adjOfEdges_symm (es : List (Nat × Nat)) (i j : Nat) :
    adjOfEdges es i j = adjOfEdges es j i := by
  unfold adjOfEdges
  by_cases h : (i, j) ∈ es ∨ (j, i) ∈ es
  · rw [if_pos h, if_pos (Or.symm h)]
  · rw [if_neg h, if_neg (fun hc => h (Or.symm hc))]

def dummyResult : AttackResult :=
  ⟨[], [], [], fun _ _ => 0, fun _ _ => 0, fun _ => 0, []⟩

/-! ## Concrete instances

Small graphs used to exercise the embedded pipeline on concrete inputs.
Gradient oracles are arbitrary concrete values (the loop only reads their
relative order). -/

/-- Zero feature matrix. -/
def XZero : Nat → Nat → ℤ := fun _ _ => 0

/-- Labels: node 0 has class 0, the rest class 1. -/
def yOneVsRest : Nat → Nat := fun i => if i = 0 then 0 else 1

/-- Target logits `[5, 1]`: true class 0, best wrong class 1. -/
def logitsW : Nat → ℤ := fun j => if j = 0 then 5 else 1

/-- Zero gradient oracle. -/
def gradsZ : Nat → Grad := fun _ => ⟨fun _ => 0, fun _ => 0, fun _ => 0⟩

/-- Direct run: 4 nodes, single edge (0,1), target 0, K = 2, one
perturbation. -/
def cW : AttackConfig :=
  SGAttackMk 0 XZero (adjOfEdges [(0, 1)]) yOneVsRest 4 2 1 2 logitsW true 3 1

def gradsW : Nat → Grad := fun t =>
  if t = 0 then ⟨fun _ => 0, fun i => if i = 0 then 1 else 0, fun _ => 0⟩
  else ⟨fun _ => 1, fun i => if i = 1 then 2 else 0, fun _ => 0⟩

def sgW : SubG := exceptGetD (getSubgraph cW (poolOf cW) (gradsW 0)) dummySG

def stW : LoopState := exceptGetD (loopStates cW sgW gradsW 1) dummyState

def rW : AttackResult := exceptGetD (attackRun cW gradsW) dummyResult

/-- Indirect run: 5 nodes, path edges (0,1), (1,2), target 0, direct=False. -/
def cI : AttackConfig :=
  SGAttackMk 0 XZero (adjOfEdges [(0, 1), (1, 2)]) yOneVsRest 5 2 1 2 logitsW
    false 3 1

def gradsI : Nat → Grad := fun t =>
  if t = 0 then ⟨fun _ => 0, fun i => 3 - (i : ℤ), fun _ => 0⟩
  else ⟨fun i => if i = 0 then -5 else -10, fun _ => 1, fun _ => 0⟩

def rI : AttackResult := exceptGetD (attackRun cI gradsI) dummyResult

/-- Isolated target, 3 nodes, empty adjacency (used to exhibit the missing
self-loop entry for the target influencer). -/
def cIso : AttackConfig :=
  SGAttackMk 0 XZero (adjOfEdges []) yOneVsRest 3 2 1 2 logitsW true 3 1

def gradsIso : Nat → Grad := fun _ =>
  ⟨fun _ => 0, fun i => if i = 0 then 1 else 0, fun _ => 0⟩

def sgIso : SubG := exceptGetD (getSubgraph cIso (poolOf cIso) (gradsIso 0)) dummySG

/-- Isolated target, 4 nodes, empty adjacency, two perturbations. -/
def cIso8 : AttackConfig :=
  SGAttackMk 0 XZero (adjOfEdges []) yOneVsRest 4 2 1 2 logitsW true 3 2

def grads8 : Nat → Grad := fun t =>
  if t = 0 then ⟨fun _ => 0, fun i => 3 - (i : ℤ), fun _ => 0⟩
  else if t = 1 then ⟨fun _ => 0, fun i => if i = 0 then 1 else 0, fun _ => 0⟩
  else ⟨fun _ => 0, fun i => if i = 0 then -5 else if i = 1 then 4 else 0, fun _ => 0⟩

def sg8 : SubG := exceptGetD (getSubgraph cIso8 (poolOf cIso8) (grads8 0)) dummySG

def st8 : LoopState := exceptGetD (loopStates cIso8 sg8 grads8 2) dummyState

/-- Empty attacker pool: every node carries label 0 while the best wrong
label is 1, so no node is in the pool at all. -/
def cC1 : AttackConfig :=
  SGAttackMk 0 XZero (adjOfEdges [(0, 1)]) (fun _ => 0) 2 2 1 2 logitsW true 3 1

/-- Nonempty pool that the neighbor filter empties: the only best-wrong-label
node is the direct neighbor of the target. -/
def cC3x : AttackConfig :=
  SGAttackMk 0 XZero (adjOfEdges [(0, 1)]) yOneVsRest 2 2 1 2 logitsW true 3 1

/-- `True` when the embedded generator raises instead of completing. -/
def runFails (e : Except String AttackResult) : Bool :=
  match e with
  | .error _ => true
  | .ok _ => false

/-! ## Claim theorems -/

/-- C1 (counterexample): the claim that an empty filtered attacker pool does
not make the perturbation loop raise is false on the code: at `cC1` (no node
carries the best-wrong label, so the pool is empty after filtering) the
attack raises instead of degenerating to no-op iterations. -/
theorem empty_pool_no_raise_refuted :
    attackersFiltered cC1 (poolOf cC1) = [] ∧
    runFails (attackRun cC1 gradsZ) = true :=
  ⟨by decide, rfl⟩

/-- C1 (amended): when the attacker pool is empty after filtering (direct
attack, structure attack on), the attack raises before the loop starts:
`get_topk_influencers` calls `torch.topk` with `k = n_perturbations + 1 > 0`
on the empty non-edge gradient vector.  There is no feature or no-op
fallback. -/
theorem empty_pool_attack_raises (c : AttackConfig) (grads : Nat → Grad)
    (has : c.attackStructure = true) (hd : c.direct = true)
    (hpool : attackersFiltered c (poolOf c) = []) :
    attackRun c grads = .error "topk(): selected index k out of range" :=
  attackRun_error_of_empty grads has hd hpool

theorem empty_pool_attack_raises_witness :
    attackRun cC1 gradsZ = .error "topk(): selected index k out of range" :=
  empty_pool_attack_raises cC1 gradsZ rfl rfl (by decide)

/-- C2: at every point of the perturbation loop, the selfloop-degree entry of
every node `v` equals `1 +` (its original edge count, plus the logged edge
additions touching `v`, minus the logged edge removals touching `v`); it is
initialized as row-sum `+ 1` and changed by `±1` for both endpoints of each
structural action, and a node touched by no logged perturbation keeps its
original value `rowSum + 1`. -/
theorem selfloop_degree_invariant (c : AttackConfig) (sg : SubG)
    (grads : Nat → Grad) (h01 : ∀ i j, c.A i j = 0 ∨ c.A i j = 1) (m : Nat)
    (st : LoopState) (h : loopStates c sg grads m = .ok st) (v : Nat) :
    st.degree v = 1 + (((neighborsOf c v).length : ℤ) +
        ((st.events.filter (isAddTouching v)).length : ℤ)) -
      ((st.events.filter (isRemTouching v)).length : ℤ) ∧
    (st.events.filter (isAddTouching v) = [] →
      st.events.filter (isRemTouching v) = [] →
      st.degree v = rowSum c v + 1) := by
  have hd := loopStates_degree h v
  constructor
  · rw [hd, rowSum_eq_card h01]
    ring
  · intro ha hr
    rw [hd, ha, hr]
    simp

theorem selfloop_degree_invariant_witness :
    stW.degree 0 = 1 + (((neighborsOf cW 0).length : ℤ) +
        ((stW.events.filter (isAddTouching 0)).length : ℤ)) -
      ((stW.events.filter (isRemTouching 0)).length : ℤ) ∧
    (stW.events.filter (isAddTouching 0) = [] →
      stW.events.filter (isRemTouching 0) = [] →
      stW.degree 0 = rowSum cW 0 + 1) :=
  selfloop_degree_invariant cW sgW gradsW (fun i j => adjOfEdges_01 _ i j) 1 stW
    rfl 0

/-- C3 (counterexample): "for every input graph and target node" fails: at
`cC3x` (whose only best-wrong-label node is the neighbor of the target, so the
filtered pool is empty) the generator raises, so with `n_perturbations = 1`
it performs no iteration, logs nothing and yields no sentinel. -/
theorem budget_accounting_refuted :
    runFails (attackRun cC3x gradsZ) = true ∧ cC3x.nPerturbations = 1 :=
  ⟨rfl, rfl⟩

/-- C3 (amended): whenever the attack generator runs to completion, it
performs exactly `n_perturbations` iterations, each appending exactly one
entry to exactly one of the two perturbation logs and yielding it, so
`len(structure_perturbations) + len(feature_perturbations) =
n_perturbations`, and the yield sequence is the logged pairs followed by the
single terminal sentinel `None`. -/
theorem budget_accounting (c : AttackConfig) (grads : Nat → Grad)
    (r : AttackResult) (h : attackRun c grads = .ok r) :
    r.events.length = c.nPerturbations ∧
    r.structureLog.length + r.featureLog.length = c.nPerturbations ∧
    r.yields = r.events.map (fun e => some (eventPair e)) ++ [none] := by
  obtain ⟨sg, final, hsg, hloop, hev, hslog, hflog, hyields, _, _, _⟩ :=
    attackRun_ok_inv h
  have hlen := loopStates_events_length hloop
  refine ⟨by rw [hev, hlen], ?_, by rw [hyields, hev]⟩
  rw [hslog, hflog, structureLog_featureLog_length, hlen]

theorem budget_accounting_witness :
    rW.events.length = cW.nPerturbations ∧
    rW.structureLog.length + rW.featureLog.length = cW.nPerturbations ∧
    rW.yields = rW.events.map (fun e => some (eventPair e)) ++ [none] :=
  budget_accounting cW gradsW rW rfl

/-- C4: in an indirect attack (`direct = False`), no structural perturbation
placed in the log touches the target node: masked existing-edge removals
cannot win the strict comparison against the non-negative non-edge maximum,
and every candidate non-edge pairs a target neighbor with a best-wrong-label
attacker node, neither of which is the target. -/
theorem indirect_mask_no_target_edges (c : AttackConfig) (grads : Nat → Grad)
    (r : AttackResult) (has : c.attackStructure = true)
    (haf : c.attackFeatures = false) (hd : c.direct = false)
    (hself : c.A c.target c.target = 0) (hy : c.y c.target ≠ bestWrong c)
    (h : attackRun c grads = .ok r) :
    ∀ p ∈ r.structureLog, p.1 ≠ c.target ∧ p.2 ≠ c.target := by
  obtain ⟨sg, final, hsg, hloop, hev, hslog, _, _, _, _, _⟩ := attackRun_ok_inv h
  obtain ⟨att, hatt, hcase⟩ := getSubgraph_ok_cases has hsg
  rcases hcase with ⟨hdt, _⟩ | ⟨_, hsgeq⟩
  · rw [hd] at hdt
    cases hdt
  · have hne : ∀ p ∈ sg.nonEdgeIndex, p.1 ≠ c.target ∧ p.2 ≠ c.target := by
      intro p hp
      rw [hsgeq] at hp
      have hm := mem_nonEdgesOf hp
      constructor
      · intro hc
        exact (mem_neighborsOf.mp (hc ▸ hm.1)).2 hself
      · intro hc
        exact hy (hc ▸ (mem_poolOf.mp (hatt _ hm.2).1).2)
    have hinv : ∀ m st, loopStates c sg grads m = .ok st →
        ∀ q ∈ structureLogOf st.events, q.1 ≠ c.target ∧ q.2 ≠ c.target := by
      intro m
      induction m with
      | zero =>
        intro st hst q hq
        rw [loopStates_zero_inv hst] at hq
        simp [initState, structureLogOf] at hq
      | succ m ih =>
        intro st hst q hq
        obtain ⟨st0, ch, h0, hch, rfl⟩ := loopStates_succ_inv hst
        rw [applyChoice_events, structureLogOf_append] at hq
        rcases List.mem_append.mp hq with hq | hq
        · exact ih st0 h0 q hq
        · rcases chooseStep_ok_cases haf hch with ⟨i, _, hsh, hmask⟩ | ⟨i, hilt, hsh⟩
          · rw [hsh] at hq
            rw [show eventOfChoice (StepChoice.rem i (sg.edgeIndex.getD i (0, 0)).1
                (sg.edgeIndex.getD i (0, 0)).2) =
              Event.removal (sg.edgeIndex.getD i (0, 0)).1
                (sg.edgeIndex.getD i (0, 0)).2 from rfl,
              structureLogOf_removal, List.mem_singleton] at hq
            have hmk := hmask hd
            unfold edgeMask at hmk
            rw [decide_eq_false_iff_not] at hmk
            push_neg at hmk
            rw [hq]
            exact hmk
          · rw [hsh] at hq
            rw [show eventOfChoice (StepChoice.add i (sg.nonEdgeIndex.getD i (0, 0)).1
                (sg.nonEdgeIndex.getD i (0, 0)).2) =
              Event.addition (sg.nonEdgeIndex.getD i (0, 0)).1
                (sg.nonEdgeIndex.getD i (0, 0)).2 from rfl,
              structureLogOf_addition, List.mem_singleton] at hq
            rw [hq]
            exact hne _ (getD_mem_of_lt _ hilt)
    intro p hp
    rw [hslog] at hp
    exact hinv _ _ hloop p hp

theorem indirect_mask_no_target_edges_witness :
    (1 : Nat) ≠ cI.target ∧ (2 : Nat) ≠ cI.target :=
  indirect_mask_no_target_edges cI gradsI rI rfl rfl rfl (by decide) (by decide)
    rfl (1, 2) (by decide)

/-- C5: the materialized modified adjacency is symmetric, and every logged
structural perturbation `(u, v)` flips both `adj[u, v]` and `adj[v, u]` to
the same value `1 - original`. -/
theorem modified_adj_symmetric (c : AttackConfig) (grads : Nat → Grad)
    (r : AttackResult) (hsym : ∀ a b, c.A a b = c.A b a)
    (h : attackRun c grads = .ok r) :
    (∀ i j, r.modifiedAdj i j = r.modifiedAdj j i) ∧
    (∀ p ∈ r.structureLog,
      r.modifiedAdj p.1 p.2 = 1 - c.A p.1 p.2 ∧
      r.modifiedAdj p.2 p.1 = 1 - c.A p.2 p.1) := by
  obtain ⟨sg, final, hsg, hloop, hev, hslog, _, _, hadj, _, _⟩ := attackRun_ok_inv h
  constructor
  · intro i j
    rw [hadj]
    exact materialize_symm hsym i j
  · intro p hp
    rw [hslog] at hp
    rw [hadj]
    exact materialize_mem hsym hp

theorem modified_adj_symmetric_witness :
    rW.modifiedAdj 0 3 = rW.modifiedAdj 3 0 :=
  (modified_adj_symmetric cW gradsW rW (adjOfEdges_symm _) rfl).1 0 3

/-- C6 (counterexample): logged flips are not applied as sequential toggles:
the materializer computes `1 - original` once and assigns it, so a pair
logged twice does not cancel back to the original entry — with original
`adj[0, 1] = 1` and log `[(0, 1), (0, 1)]` the final entry is `0`, not `1`. -/
theorem duplicate_flip_cancel_refuted :
    materialize (adjOfEdges [(0, 1)]) [(0, 1), (0, 1)] 0 1 = 0 ∧
    adjOfEdges [(0, 1)] 0 1 = 1 := by
  decide

/-- C6 (amended): materialization assigns each logged pair, at both
orientations, the value `1 - original` (computed from the original adjacency
once): a pair logged once is thereby toggled, but duplicate occurrences of a
pair do not cancel — the entry equals `1 - original` regardless of
multiplicity; entries whose pair is absent from the log (in either
orientation) are unchanged.  (`eliminate_zeros` only prunes explicit zeros
from the sparse storage and changes no entry value.) -/
theorem materialize_set_semantics (A : Nat → Nat → ℤ) (log : List (Nat × Nat))
    (hsym : ∀ a b, A a b = A b a) :
    (∀ u v, (u, v) ∈ log →
      materialize A log u v = 1 - A u v ∧ materialize A log v u = 1 - A v u) ∧
    (∀ i j, (i, j) ∉ log → (j, i) ∉ log → materialize A log i j = A i j) :=
  ⟨fun _ _ h => materialize_mem hsym h, fun _ _ hij hji => materialize_not_mem hij hji⟩

theorem materialize_set_semantics_witness :
    materialize (adjOfEdges [(0, 1)]) [(0, 1), (0, 1)] 0 1 =
      1 - adjOfEdges [(0, 1)] 0 1 ∧
    materialize (adjOfEdges [(0, 1)]) [(0, 1), (0, 1)] 1 0 =
      1 - adjOfEdges [(0, 1)] 1 0 :=
  (materialize_set_semantics (adjOfEdges [(0, 1)]) [(0, 1), (0, 1)]
    (adjOfEdges_symm _)).1 0 1 (by decide)

/-- C7 (counterexample): the claim that `unique_nodes` contains every
endpoint of `edges_all` is false on the code for an isolated target: at
`cIso` the target `0` appears as a candidate non-edge endpoint of
`edges_all`, but `sub_nodes` is empty and `0` is not an attacker node, so it
receives no self-loop entry. -/
theorem selfloop_cover_refuted :
    getSubgraph cIso (poolOf cIso) (gradsIso 0) = .ok sgIso ∧
    (0, 1) ∈ sgIso.edgesAll ∧ 0 ∉ sgIso.selfLoopNodes :=
  ⟨rfl, by decide, by decide⟩

/-- C7 (amended): the subgraph assembler builds self-loops exactly over
`unique_nodes = union1d(sub_nodes, attacker_nodes)`, and when the target is
not isolated (so the influencers — the target itself or, for indirect
attacks with `K ≥ 1`, its neighbors — lie in `sub_nodes`), this set contains
every node appearing as an endpoint in `edges_all`. -/
theorem selfloop_cover_amended (c : AttackConfig)
    (has : c.attackStructure = true) (hsym : ∀ i j, c.A i j = c.A j i)
    (hK : 0 < c.K) (ht : c.target < c.n)
    (hni : ∃ j, j < c.n ∧ c.A c.target j ≠ 0) :
    (∀ (infl att sn : List Nat) (sed : List (Nat × Nat)) (x : Nat),
      x ∈ (subgraphProcessing c infl att sn sed).selfLoopNodes ↔
        (x ∈ sn ∨ x ∈ att)) ∧
    (∀ pool g0 sg, getSubgraph c pool g0 = .ok sg →
      ∀ e ∈ sg.edgesAll, e.1 ∈ sg.selfLoopNodes ∧ e.2 ∈ sg.selfLoopNodes) := by
  constructor
  · intro infl att sn sed x
    exact mem_listUnion
  · intro pool g0 sg hsg
    obtain ⟨att, _, hcase⟩ := getSubgraph_ok_cases has hsg
    have hego := egoSubgraph_nonisolated ht hni
    have hsed : ∀ e ∈ (egoSubgraph c).2,
        e.1 ∈ (egoSubgraph c).1 ∧ e.2 ∈ (egoSubgraph c).1 :=
      fun e he => egoSubgraph_edge_mem rfl he
    have hfst : (egoSubgraph c).1 = kHopNodes c c.K := by rw [hego]
    rcases hcase with ⟨_, hsgeq⟩ | ⟨_, hsgeq⟩
    · rw [hsgeq]
      apply subgraphProcessing_endpoints hsed
      intro i hi
      rw [List.mem_singleton] at hi
      rw [hi, hfst]
      exact target_mem_kHopNodes c c.K
    · rw [hsgeq]
      apply subgraphProcessing_endpoints hsed
      intro i hi
      rw [hfst]
      exact neighbor_mem_kHopNodes hsym ht hi hK

theorem selfloop_cover_amended_witness :
    (0, 1).1 ∈ sgW.selfLoopNodes ∧ (0, 1).2 ∈ sgW.selfLoopNodes :=
  (selfloop_cover_amended cW rfl (adjOfEdges_symm _) (by decide) (by decide)
    ⟨1, by decide, by decide⟩).2 (poolOf cW) (gradsW 0) sgW rfl (0, 1) (by decide)

/-- C8: for an isolated target (zero row and column in the adjacency),
ego-subgraph extraction returns empty node and edge sets, and every
iteration of any attack run commits an edge addition (never a removal), each
increasing the selfloop-degree of the target entry by exactly 1 (so it equals
`1 + m` after `m` iterations, starting from `rowSum + 1 = 1`). -/
theorem isolated_target_additions_only (c : AttackConfig)
    (has : c.attackStructure = true) (haf : c.attackFeatures = false)
    (hrow : ∀ j, c.A c.target j = 0) (hcol : ∀ i, c.A i c.target = 0) :
    egoSubgraph c = ([], []) ∧
    ∀ pool g0 sg, getSubgraph c pool g0 = .ok sg →
      ∀ grads m st, loopStates c sg grads m = .ok st →
        (∀ e ∈ st.events, ∃ u v, e = Event.addition u v) ∧
        st.degree c.target = 1 + m := by
  have hego := egoSubgraph_isolated hrow hcol
  refine ⟨hego, ?_⟩
  intro pool g0 sg hsg
  obtain ⟨att, _, hcase⟩ := getSubgraph_ok_cases has hsg
  have hsedE : (egoSubgraph c).2 = [] := by rw [hego]
  have hE : sg.edgeIndex = [] := by
    rcases hcase with ⟨_, hsgeq⟩ | ⟨_, hsgeq⟩ <;> (rw [hsgeq]; exact hsedE)
  have hne : ∀ p ∈ sg.nonEdgeIndex, p.1 = c.target := by
    intro p hp
    rcases hcase with ⟨_, hsgeq⟩ | ⟨_, hsgeq⟩
    · rw [hsgeq, subgraphProcessing_nonEdgeIndex] at hp
      have hm := (mem_nonEdgesOf hp).1
      rwa [List.mem_singleton] at hm
    · rw [hsgeq, subgraphProcessing_nonEdgeIndex] at hp
      have hm := (mem_nonEdgesOf hp).1
      rw [neighborsOf_isolated hrow] at hm
      cases hm
  intro grads m
  induction m with
  | zero =>
    intro st hst
    rw [loopStates_zero_inv hst]
    refine ⟨by simp [initState], ?_⟩
    show rowSum c c.target + 1 = 1 + 0
    rw [rowSum_isolated hrow]
    ring
  | succ m ih =>
    intro st hst
    obtain ⟨st0, ch, h0, hch, rfl⟩ := loopStates_succ_inv hst
    obtain ⟨hall, hdeg⟩ := ih st0 h0
    rcases chooseStep_ok_cases haf hch with ⟨i, hiE, _, _⟩ | ⟨i, hilt, hsh⟩
    · rw [hE] at hiE
      simp at hiE
    · constructor
      · intro e he
        rw [applyChoice_events] at he
        rcases List.mem_append.mp he with he | he
        · exact hall e he
        · rw [List.mem_singleton] at he
          rw [he, hsh]
          exact ⟨_, _, rfl⟩
      · have hu : (sg.nonEdgeIndex.getD i (0, 0)).1 = c.target :=
          hne _ (getD_mem_of_lt _ hilt)
        rw [hsh]
        show (if c.target = (sg.nonEdgeIndex.getD i (0, 0)).1 ∨
            c.target = (sg.nonEdgeIndex.getD i (0, 0)).2 then
          st0.degree c.target + 1 else st0.degree c.target) = 1 + (m + 1 : Nat)
        rw [if_pos (Or.inl hu.symm), hdeg]
        push_cast
        ring

theorem isolated_target_additions_only_witness :
    st8.degree cIso8.target = 1 + 2 :=
  ((isolated_target_additions_only cIso8 rfl rfl (fun _ => rfl) (fun _ => rfl)).2
    (poolOf cIso8) (grads8 0) sg8 rfl grads8 2 st8 rfl).2

/-- C9: the constructor hard-codes `attack_features = False` and
`attack_structure = True` regardless of its arguments, so in every completed
run all yielded perturbations are structural pairs, the feature perturbation
log is empty, and the final modified feature matrix equals the original. -/
theorem features_never_attacked (t0 : Nat) (X A : Nat → Nat → ℤ) (y : Nat → Nat)
    (n ncl nf K : Nat) (lg : Nat → ℤ) (d : Bool) (ni np : Nat)
    (grads : Nat → Grad) (r : AttackResult)
    (h : attackRun (SGAttackMk t0 X A y n ncl nf K lg d ni np) grads = .ok r) :
    (SGAttackMk t0 X A y n ncl nf K lg d ni np).attackFeatures = false ∧
    (SGAttackMk t0 X A y n ncl nf K lg d ni np).attackStructure = true ∧
    r.featureLog = [] ∧ r.modifiedFeatures = X ∧
    r.yields = r.structureLog.map some ++ [none] := by
  obtain ⟨sg, final, hsg, hloop, hev, hslog, hflog, hyields, _, hfeat, _⟩ :=
    attackRun_ok_inv h
  obtain ⟨hall, hX⟩ := loopStates_structural rfl hloop
  obtain ⟨hmap, hempty⟩ := structureLogOf_all_structural hall
  refine ⟨rfl, rfl, ?_, ?_, ?_⟩
  · rw [hflog, hempty]
  · rw [hfeat, hX]
    rfl
  · rw [hyields, hslog, hmap, List.map_map]
    rfl

theorem features_never_attacked_witness :
    cW.attackFeatures = false ∧ cW.attackStructure = true ∧
    rW.featureLog = [] ∧ rW.modifiedFeatures = XZero ∧
    rW.yields = rW.structureLog.map some ++ [none] :=
  features_never_attacked 0 XZero (adjOfEdges [(0, 1)]) yOneVsRest 4 2 1 2
    logitsW true 3 1 gradsW rW rfl

/-- C10: the `SGA` wrapper does not forward its `direct` and `n_influencers`
arguments to the underlying `SGAttack`, which therefore always runs with
`direct = True` and `n_influencers = 3`: for any two values of these
arguments (all other inputs equal) the configurations — and hence the
perturbation sequences produced — are identical. -/
theorem sga_ignores_direct_and_influencers (t0 : Nat) (X A : Nat → Nat → ℤ)
    (y : Nat → Nat) (n ncl nf K : Nat) (lg : Nat → ℤ) (d1 d2 : Bool)
    (k1 k2 np : Nat) (grads : Nat → Grad) :
    SGAMk t0 X A y n ncl nf K lg d1 k1 np = SGAMk t0 X A y n ncl nf K lg d2 k2 np ∧
    (SGAMk t0 X A y n ncl nf K lg d1 k1 np).direct = true ∧
    (SGAMk t0 X A y n ncl nf K lg d1 k1 np).nInfluencers = 3 ∧
    attackRun (SGAMk t0 X A y n ncl nf K lg d1 k1 np) grads =
      attackRun (SGAMk t0 X A y n ncl nf K lg d2 k2 np) grads :=
  ⟨rfl, rfl, rfl, rfl⟩

end SGAVerify
